import Mathlib

/-!
Verification of the register-set layer of the wazero register allocator.

This file is a shallow embedding of `regalloc/regset.go`:

* `RegSet` in Go is `type RegSet uint64`, a bitset over the 64-register
  universe.  We embed the machine word as a `Nat`; everywhere the Go code
  performs a `uint64` shift whose count may reach or exceed the word width we
  reduce explicitly modulo `2 ^ 64` (a Go shift of a `uint64` by 64 or more
  yields 0).
* `regInUseSet` in Go is `[64]*vrState[I, B]`, a 64-entry array of pointers.
  We embed it as a function `Fin 64 → Option V`, where the type parameter `V`
  stands for the `vrState` record (defined outside the register-set file) and
  a nil pointer is `Option.none`.  Go array indexing with an index outside
  `0..63` is a runtime panic; the two methods that index without a bound
  check (`get` and `remove`) are therefore embedded as `Option`-returning
  functions in which `none` is the panic.
* The linear-scan allocator core itself is not among the sources; the small
  pool-transition system near the end of the file is modelled from the spec
  and is marked as such.
-/

/-- Real (physical) register ID.  In Go `RealReg` is a small integer type
whose values may lie outside the 64-register universe (sentinels), so the
embedding uses `Nat`. -/
abbrev RealReg := Nat

/-- Embeds `type RegSet uint64`: the bitset word, as a `Nat` that the
operations keep below `2 ^ 64`. -/
abbrev RegSet := Nat

/-- Embeds `RegSet.has`: `rs&(1<<uint(r)) != 0`.  The shift happens at
`uint64` width, hence the explicit reduction modulo `2 ^ 64`: for `r ≥ 64`
the mask is 0 and the test is false. -/
def RegSet.has (rs : RegSet) (r : RealReg) : Bool :=
  decide (rs &&& ((1 <<< r) % 2 ^ 64) ≠ 0)

/-- Embeds `RegSet.add`: an ID at or beyond the 64-register universe is
ignored (`if r >= 64 { return rs }`); otherwise bit `r` is set. -/
def RegSet.add (rs : RegSet) (r : RealReg) : RegSet :=
  if 64 ≤ r then rs else rs ||| ((1 <<< r) % 2 ^ 64)

/-- Embeds `RegSet.Range`, as the list of register IDs handed to the callback
in loop order: `i` runs over `0..63` and `i` is visited exactly when
`rs&(1<<uint(i)) != 0`, i.e. when `rs.has i`. -/
def RegSet.Range (rs : RegSet) : List RealReg :=
  (List.range 64).filter (fun i => rs.has i)

/-- Embeds `NewRegSet(regs ...RealReg)`: fold `add` over the arguments
starting from the zero value of `RegSet`. -/
def NewRegSet (regs : List RealReg) : RegSet :=
  regs.foldl RegSet.add 0

/-- Modelled from the spec: the section 4.1 contract lists `remove(r)` on
`RegSet`, but no such method appears in the `regset.go` under the sources
(only `regInUseSet` has a `remove`).  Following the spec's words and the
out-of-range tolerance it prescribes for the bitset layer, an ID at or
beyond the universe width is ignored and an in-range ID has its bit
cleared. -/
def RegSet.remove (rs : RegSet) (r : RealReg) : RegSet :=
  if 64 ≤ r then rs else Nat.ldiff rs ((1 <<< r) % 2 ^ 64)

/-- Number of registers a `Range` traversal visits, i.e. the cardinality of
the bitset. -/
def RegSet.count (rs : RegSet) : Nat :=
  rs.Range.length

/-- Embeds `regInUseSet[I, B]`, the `[64]*vrState[I, B]` array mapping each
real register to the state of the value occupying it (nil = free). -/
def regInUseSet (V : Type) := Fin 64 → Option V

/-- Embeds `newRegInUseSet` / `reset`: every entry is nil. -/
def newRegInUseSet (V : Type) : regInUseSet V := fun _ => none

/-- Embeds `regInUseSet.has`: `r < 64 && rs[r] != nil`.  The short-circuit
guard makes the array access in-bounds, so the query is total. -/
def regInUseSet.has {V : Type} (rs : regInUseSet V) (r : RealReg) : Bool :=
  if h : r < 64 then (rs ⟨r, h⟩).isSome else false

/-- Embeds `regInUseSet.get`: `return rs[r]` indexes the 64-entry array with
no bound check, so an ID at or beyond 64 is a runtime panic, embedded as the
outer `none`; a successful access returns the stored pointer (`some none`
when the slot is nil). -/
def regInUseSet.get {V : Type} (rs : regInUseSet V) (r : RealReg) :
    Option (Option V) :=
  if h : r < 64 then some (rs ⟨r, h⟩) else none

/-- Embeds `regInUseSet.remove`: `rs[r] = nil` indexes the array with no
bound check, so an ID at or beyond 64 is a runtime panic, embedded as
`none`; otherwise the slot is cleared. -/
def regInUseSet.remove {V : Type} (rs : regInUseSet V) (r : RealReg) :
    Option (regInUseSet V) :=
  if h : r < 64 then some (Function.update rs ⟨r, h⟩ none) else none

/-- Embeds `regInUseSet.add`: an ID at or beyond 64 is ignored
(`if r >= 64 { return }`); otherwise the slot is overwritten with the given
pointer. -/
def regInUseSet.add {V : Type} (rs : regInUseSet V) (r : RealReg)
    (vr : Option V) : regInUseSet V :=
  if h : r < 64 then Function.update rs ⟨r, h⟩ vr else rs

/-- Modelled from the spec: the linear-scan core (section 4.3) is not among
the sources.  For one register class it keeps a free pool and the in-use
set; conservation is about the two bitsets, so only they are modelled. -/
structure PoolState where
  free : RegSet
  inUse : RegSet

/-- Modelled from the spec: the pool-affecting events of a linear-scan step
(section 4.3).  `assign` takes a register from the free pool (step 2);
`release` returns one, covering both interval expiry (step 1) and
caller-saved spilling at a call (step 5); `evictReassign` spills a victim
whose register is immediately handed to the current value, so the pools are
unchanged (step 3); `spillCurrent` spills the current value itself, again
leaving the pools unchanged (step 3). -/
inductive PoolEvent where
  | assign (r : RealReg)
  | release (r : RealReg)
  | evictReassign (victim current : RealReg)
  | spillCurrent

/-- Modelled from the spec: one transition of the per-class pools.  `assign`
and `release` are guarded by membership, matching the algorithm's use of
them only on registers currently free (resp. in use). -/
def poolStep (st : PoolState) (e : PoolEvent) : PoolState :=
  match e with
  | .assign r =>
      if st.free.has r then
        { free := st.free.remove r, inUse := st.inUse.add r }
      else st
  | .release r =>
      if st.inUse.has r then
        { free := st.free.add r, inUse := st.inUse.remove r }
      else st
  | .evictReassign _ _ => st
  | .spillCurrent => st

/-- Modelled from the spec: a full allocation run over one class starts with
every allocatable register free and none in use, then applies the scan's
pool events in order. -/
def runPool (allocatable : RegSet) (evs : List PoolEvent) : PoolState :=
  evs.foldl poolStep { free := allocatable, inUse := 0 }

/-! ### Bit-level facts about the RegSet word -/

theorem RegSet.shift_mod_of_lt {r : Nat} (h : r < 64) :
    (1 <<< r) % 2 ^ 64 = 2 ^ r := by
  rw [Nat.one_shiftLeft]
  exact Nat.mod_eq_of_lt (Nat.pow_lt_pow_right (by omega) h)

theorem RegSet.shift_mod_of_ge {r : Nat} (h : 64 ≤ r) :
    (1 <<< r) % 2 ^ 64 = 0 := by
  rw [Nat.one_shiftLeft]
  exact Nat.mod_eq_zero_of_dvd (pow_dvd_pow 2 h)

theorem RegSet.has_eq_testBit (rs : RegSet) (r : Nat) :
    rs.has r = (decide (r < 64) && rs.testBit r) := by
  by_cases h : r < 64
  · rw [RegSet.has, shift_mod_of_lt h, Nat.and_two_pow]
    have hp : (2 : Nat) ^ r ≠ 0 := by positivity
    cases hb : rs.testBit r <;> simp [h, hb, hp]
  · rw [RegSet.has, shift_mod_of_ge (by omega), Nat.and_zero]
    simp [h]

theorem RegSet.has_lt {rs : RegSet} {r : Nat} (h : rs.has r = true) : r < 64 := by
  rw [RegSet.has_eq_testBit] at h
  by_contra hc
  simp [hc] at h

theorem RegSet.has_add (rs : RegSet) (s r : Nat) :
    (rs.add s).has r = (rs.has r || (decide (r = s) && decide (r < 64))) := by
  by_cases hs : 64 ≤ s
  · rw [RegSet.add, if_pos hs]
    by_cases hrs : r = s
    · subst hrs
      have hd : decide (r < 64) = false := by
        simp only [decide_eq_false_iff_not]
        omega
      simp [hd]
    · simp [hrs]
  · have hs' : s < 64 := by omega
    rw [RegSet.add, if_neg hs, RegSet.has_eq_testBit, RegSet.has_eq_testBit,
      shift_mod_of_lt hs', Nat.testBit_lor]
    by_cases hrs : r = s
    · subst hrs
      simp [Nat.testBit_two_pow_self, hs']
    · rw [Nat.testBit_two_pow_of_ne (fun hh => hrs hh.symm)]
      simp [hrs, Bool.and_or_distrib_left]

theorem RegSet.has_remove (rs : RegSet) (s r : Nat) :
    (rs.remove s).has r = (rs.has r && !(decide (r = s))) := by
  by_cases hs : 64 ≤ s
  · rw [RegSet.remove, if_pos hs]
    by_cases hrs : r = s
    · subst hrs
      have hd : decide (r < 64) = false := by
        simp only [decide_eq_false_iff_not]
        omega
      simp [RegSet.has_eq_testBit, hd]
    · simp [hrs]
  · have hs' : s < 64 := by omega
    rw [RegSet.remove, if_neg hs, RegSet.has_eq_testBit, RegSet.has_eq_testBit,
      shift_mod_of_lt hs', Nat.testBit_ldiff]
    by_cases hrs : r = s
    · subst hrs
      simp [Nat.testBit_two_pow_self]
    · rw [Nat.testBit_two_pow_of_ne (fun hh => hrs hh.symm)]
      simp [hrs, Bool.and_assoc]

theorem RegSet.has_zero (r : Nat) : RegSet.has 0 r = false := by
  simp [RegSet.has_eq_testBit]

theorem RegSet.add_lt_two_pow {rs : RegSet} (h : rs < 2 ^ 64) (r : Nat) :
    rs.add r < 2 ^ 64 := by
  rw [RegSet.add]
  split
  · exact h
  · exact Nat.or_lt_two_pow h (Nat.mod_lt _ (by norm_num))

theorem RegSet.foldl_add_lt_two_pow (l : List RealReg) {rs : RegSet}
    (h : rs < 2 ^ 64) : l.foldl RegSet.add rs < 2 ^ 64 := by
  induction l generalizing rs with
  | nil => exact h
  | cons a t ih => exact ih (RegSet.add_lt_two_pow h a)

theorem NewRegSet_lt_two_pow (l : List RealReg) : NewRegSet l < 2 ^ 64 :=
  RegSet.foldl_add_lt_two_pow l (by norm_num)

theorem RegSet.has_foldl_add (l : List RealReg) (rs : RegSet) (r : Nat) :
    (l.foldl RegSet.add rs).has r = true ↔
      (rs.has r = true ∨ (r ∈ l ∧ r < 64)) := by
  induction l generalizing rs with
  | nil => simp
  | cons a t ih =>
    rw [List.foldl_cons, ih, RegSet.has_add]
    simp only [Bool.or_eq_true, Bool.and_eq_true, decide_eq_true_eq,
      List.mem_cons]
    tauto

theorem NewRegSet_has_iff (l : List RealReg) (r : Nat) :
    (NewRegSet l).has r = true ↔ (r ∈ l ∧ r < 64) := by
  rw [NewRegSet, RegSet.has_foldl_add]
  simp [RegSet.has_zero]

theorem RegSet.eq_of_has_eq {a b : RegSet} (ha : a < 2 ^ 64) (hb : b < 2 ^ 64)
    (h : ∀ r, a.has r = b.has r) : a = b := by
  apply Nat.eq_of_testBit_eq
  intro i
  by_cases hi : i < 64
  · have hh := h i
    rw [RegSet.has_eq_testBit, RegSet.has_eq_testBit] at hh
    simpa [hi] using hh
  · have hpow : (2 : Nat) ^ 64 ≤ 2 ^ i :=
      Nat.pow_le_pow_right (by omega) (by omega)
    rw [Nat.testBit_lt_two_pow (lt_of_lt_of_le ha hpow),
      Nat.testBit_lt_two_pow (lt_of_lt_of_le hb hpow)]

/-! ### Facts about Range enumeration -/

theorem RegSet.mem_Range (rs : RegSet) (r : Nat) :
    r ∈ rs.Range ↔ rs.has r = true := by
  rw [RegSet.Range, List.mem_filter, List.mem_range]
  exact ⟨fun h => h.2, fun h => ⟨RegSet.has_lt h, h⟩⟩

theorem RegSet.Range_pairwise (rs : RegSet) : rs.Range.Pairwise (· < ·) :=
  (List.pairwise_lt_range 64).filter _

theorem RegSet.Range_nodup (rs : RegSet) : rs.Range.Nodup :=
  (List.nodup_range 64).filter _

theorem RegSet.count_Range (rs : RegSet) (r : Nat) :
    rs.Range.count r = if rs.has r then 1 else 0 := by
  by_cases h : rs.has r = true
  · simp only [h, if_true]
    exact List.count_eq_one_of_mem (RegSet.Range_nodup rs)
      ((RegSet.mem_Range rs r).mpr h)
  · have h' : rs.has r = false := by simpa using h
    simp only [h', Bool.false_eq_true, if_false]
    exact List.count_eq_zero_of_not_mem
      (fun hm => h ((RegSet.mem_Range rs r).mp hm))

/-! ### Counting members -/

theorem RegSet.count_eq_countP (rs : RegSet) :
    rs.count = (List.range 64).countP (fun i => rs.has i) := by
  rw [RegSet.count, RegSet.Range, List.countP_eq_length_filter]

theorem countP_split (p q pb : Nat → Bool) (l : List Nat)
    (h : ∀ i ∈ l, (p i || q i) = pb i ∧ (p i && q i) = false) :
    l.countP p + l.countP q = l.countP pb := by
  induction l with
  | nil => simp
  | cons a t ih =>
    obtain ⟨ha1, ha2⟩ := h a (List.mem_cons_self a t)
    have ht : ∀ i ∈ t, (p i || q i) = pb i ∧ (p i && q i) = false :=
      fun i hi => h i (List.mem_cons_of_mem a hi)
    rw [List.countP_cons, List.countP_cons, List.countP_cons, ← ih ht, ← ha1]
    cases hp : p a <;> cases hq : q a <;>
      simp [hp, hq] at ha2 ⊢ <;> omega

/-! ### The pool partition invariant -/

/-- Pointwise partition: every register is allocatable exactly when it is
free or in use, and never both. -/
def PoolInv (allocatable : RegSet) (st : PoolState) : Prop :=
  ∀ i : Nat, (st.free.has i || st.inUse.has i) = allocatable.has i ∧
    (st.free.has i && st.inUse.has i) = false

theorem poolInv_init (al : RegSet) :
    PoolInv al { free := al, inUse := 0 } := by
  intro i
  simp [RegSet.has_zero]

theorem poolInv_step {al : RegSet} {st : PoolState} (e : PoolEvent)
    (h : PoolInv al st) : PoolInv al (poolStep st e) := by
  cases e with
  | assign r =>
    rw [poolStep]
    by_cases hf : st.free.has r = true
    · simp only [hf, if_true]
      intro i
      obtain ⟨h1, h2⟩ := h i
      by_cases hir : i = r
      · subst hir
        have hlt : i < 64 := RegSet.has_lt hf
        rw [hf] at h1 h2
        refine ⟨?_, ?_⟩ <;>
          simp [RegSet.has_remove, RegSet.has_add, hlt, ← h1]
      · simp [RegSet.has_remove, RegSet.has_add, hir, h1, h2]
    · have hf' : st.free.has r = false := by simpa using hf
      simpa [hf'] using h
  | release r =>
    rw [poolStep]
    by_cases hf : st.inUse.has r = true
    · simp only [hf, if_true]
      intro i
      obtain ⟨h1, h2⟩ := h i
      by_cases hir : i = r
      · subst hir
        have hlt : i < 64 := RegSet.has_lt hf
        rw [hf] at h1 h2
        refine ⟨?_, ?_⟩ <;>
          simp [RegSet.has_remove, RegSet.has_add, hlt, ← h1]
      · simp [RegSet.has_remove, RegSet.has_add, hir, h1, h2]
    · have hf' : st.inUse.has r = false := by simpa using hf
      simpa [hf'] using h
  | evictReassign v c => exact h
  | spillCurrent => exact h

theorem poolInv_foldl {al : RegSet} (evs : List PoolEvent) :
    ∀ st : PoolState, PoolInv al st → PoolInv al (evs.foldl poolStep st) := by
  induction evs with
  | nil => exact fun _ h => h
  | cons e t ih => exact fun st h => ih _ (poolInv_step e h)

theorem poolInv_run (al : RegSet) (evs : List PoolEvent) :
    PoolInv al (runPool al evs) :=
  poolInv_foldl evs _ (poolInv_init al)

theorem PoolInv.count_eq {al : RegSet} {st : PoolState} (h : PoolInv al st) :
    st.free.count + st.inUse.count = al.count := by
  rw [RegSet.count_eq_countP, RegSet.count_eq_countP, RegSet.count_eq_countP]
  exact countP_split _ _ _ _ (fun i _ => h i)

/-! ### The claims -/

/-- C1 counterexample: the claim includes `regInUseSet.get` and
`regInUseSet.remove` among the operations that accept an out-of-range
register ID without panicking, but both index the 64-entry array with no
bound check; at register ID 64 the access is out of bounds, a runtime
panic, embedded as `none`. -/
theorem C1_counterexample :
    regInUseSet.get (newRegInUseSet Unit) 64 = none ∧
    regInUseSet.remove (newRegInUseSet Unit) 64 = none := by
  constructor <;> rfl

/-- C1 (amended): at the bitset layer the guarded operations `RegSet.has`,
`RegSet.add`, `regInUseSet.has` and `regInUseSet.add` accept an out-of-range
register ID (64 or greater) without error: mutators leave the set unchanged
and queries report non-membership; `regInUseSet.get` and
`regInUseSet.remove`, by contrast, index the array unguarded and panic on
such an ID. -/
theorem C1_bitset_out_of_range {V : Type} (rs : RegSet) (s : regInUseSet V)
    (r : RealReg) (vr : Option V) (h : 64 ≤ r) :
    rs.has r = false ∧ rs.add r = rs ∧
    s.has r = false ∧ s.add r vr = s ∧
    s.get r = none ∧ s.remove r = none := by
  have hn : ¬ r < 64 := Nat.not_lt.mpr h
  refine ⟨?_, ?_, ?_, ?_, ?_, ?_⟩
  · rw [RegSet.has_eq_testBit]
    simp [hn]
  · rw [RegSet.add, if_pos h]
  · simp [regInUseSet.has, hn]
  · simp [regInUseSet.add, hn]
  · simp [regInUseSet.get, hn]
  · simp [regInUseSet.remove, hn]

/-- C1 witness: the amended tolerance at the concrete ID 64. -/
theorem C1_witness :
    RegSet.has 5 64 = false ∧ RegSet.add 5 64 = 5 ∧
    regInUseSet.has (newRegInUseSet Unit) 64 = false ∧
    regInUseSet.add (newRegInUseSet Unit) 64 (some ()) = newRegInUseSet Unit ∧
    regInUseSet.get (newRegInUseSet Unit) 64 = none ∧
    regInUseSet.remove (newRegInUseSet Unit) 64 = none :=
  C1_bitset_out_of_range 5 (newRegInUseSet Unit) 64 (some ()) (by decide)

/-- C2: the in-use map binds each real register below 64 to at most one
value state, and adding a binding for register `r` replaces any previous
occupant of `r`. -/
theorem C2_register_single_occupancy {V : Type} (s : regInUseSet V)
    (r : RealReg) (h : r < 64) (vr : Option V) :
    (∀ v₁ v₂ : V, s ⟨r, h⟩ = some v₁ → s ⟨r, h⟩ = some v₂ → v₁ = v₂) ∧
    regInUseSet.add s r vr ⟨r, h⟩ = vr := by
  constructor
  · intro v₁ v₂ h₁ h₂
    exact Option.some.inj (h₁.symm.trans h₂)
  · simp [regInUseSet.add, h]

/-- C2 witness: adding a binding for register 3 replaces the occupant. -/
theorem C2_witness :
    regInUseSet.add (newRegInUseSet Nat) 3 (some 7) ⟨3, by decide⟩ = some 7 :=
  (C2_register_single_occupancy (newRegInUseSet Nat) 3 (by decide) (some 7)).2

/-- C3: for every RegSet built from the empty set by a sequence of `add`
operations, `has r` holds exactly for the in-range registers added, and the
`Range` traversal visits each member exactly once and no other register, in
strictly ascending order. -/
theorem C3_regset_build_and_range (l : List RealReg) :
    (∀ r, ((l.foldl RegSet.add 0).has r = true ↔ (r ∈ l ∧ r < 64))) ∧
    (∀ r, (l.foldl RegSet.add 0).Range.count r =
      if (l.foldl RegSet.add 0).has r then 1 else 0) ∧
    (l.foldl RegSet.add 0).Range.Pairwise (· < ·) :=
  ⟨fun r => by rw [RegSet.has_foldl_add]; simp [RegSet.has_zero],
   fun r => RegSet.count_Range _ r,
   RegSet.Range_pairwise _⟩

/-- C4: the spec's RegSet contract includes a remove operation alongside
has, add and ascending-order range; for every set and register below 64,
removing the register makes `has` false for it and leaves every other
register's membership unchanged.  (`RegSet.remove` is modelled from the
spec, since the sources define a remove only on `regInUseSet`.) -/
theorem C4_regset_remove_spec (rs : RegSet) (r : RealReg) (_h : r < 64) :
    (rs.remove r).has r = false ∧
    ∀ s, s ≠ r → (rs.remove r).has s = rs.has s := by
  constructor
  · rw [RegSet.has_remove]
    simp
  · intro s hs
    rw [RegSet.has_remove]
    simp [hs]

/-- C4 witness: removing register 3 from the set containing 3 and 5. -/
theorem C4_witness :
    ((NewRegSet [3, 5]).remove 3).has 3 = false ∧
    ((NewRegSet [3, 5]).remove 3).has 5 = (NewRegSet [3, 5]).has 5 :=
  ⟨(C4_regset_remove_spec (NewRegSet [3, 5]) 3 (by decide)).1,
   (C4_regset_remove_spec (NewRegSet [3, 5]) 3 (by decide)).2 5 (by decide)⟩

/-- C5: for every RegSet and every register ID at or beyond the fixed
universe width of 64, `add` returns the set unchanged and signals no error;
likewise `regInUseSet.add` performs no mutation. -/
theorem C5_add_ignores_out_of_range {V : Type} (rs : RegSet)
    (s : regInUseSet V) (r : RealReg) (vr : Option V) (h : 64 ≤ r) :
    rs.add r = rs ∧ s.add r vr = s := by
  have hn : ¬ r < 64 := Nat.not_lt.mpr h
  exact ⟨by rw [RegSet.add, if_pos h], by simp [regInUseSet.add, hn]⟩

/-- C5 witness: adding register 100 changes neither structure. -/
theorem C5_witness :
    RegSet.add (NewRegSet [1, 2]) 100 = NewRegSet [1, 2] ∧
    regInUseSet.add (newRegInUseSet Unit) 100 (some ()) = newRegInUseSet Unit :=
  C5_add_ignores_out_of_range (NewRegSet [1, 2]) (newRegInUseSet Unit) 100
    (some ()) (by decide)

/-- C6: `NewRegSet regs` contains exactly the elements of `regs` below 64:
`has r` is true if and only if `r` appears in `regs` and `r` is below 64. -/
theorem C6_NewRegSet_membership (regs : List RealReg) (r : RealReg) :
    (NewRegSet regs).has r = true ↔ (r ∈ regs ∧ r < 64) :=
  NewRegSet_has_iff regs r

/-- C7: across a full allocation run (modelled from the spec's linear-scan
core, which is not among the sources), at every step the number of free
registers of a class plus the number in use equals the class's total
allocatable count. -/
theorem C7_register_count_conservation (allocatable : RegSet)
    (evs : List PoolEvent) :
    (runPool allocatable evs).free.count +
      (runPool allocatable evs).inUse.count = allocatable.count :=
  (poolInv_run allocatable evs).count_eq

/-- C8: the RegSet membership test is total over the full register-ID range:
for every set and every ID at or beyond 64 it returns false without
error. -/
theorem C8_has_total (rs : RegSet) (r : RealReg) (h : 64 ≤ r) :
    rs.has r = false := by
  rw [RegSet.has_eq_testBit]
  simp [Nat.not_lt.mpr h]

/-- C8 witness: a large word still reports non-membership at ID 64. -/
theorem C8_witness : RegSet.has 123456789 64 = false :=
  C8_has_total 123456789 64 (by decide)

/-- C9: `RegSet.add` is idempotent and commutative, so `NewRegSet` yields
the same set for argument lists with the same elements, regardless of order
or duplicates. -/
theorem C9_add_idempotent_commutative :
    (∀ (rs : RegSet) (r : RealReg), (rs.add r).add r = rs.add r) ∧
    (∀ (rs : RegSet) (r s : RealReg), (rs.add r).add s = (rs.add s).add r) ∧
    (∀ l₁ l₂ : List RealReg, (∀ r, r ∈ l₁ ↔ r ∈ l₂) →
      NewRegSet l₁ = NewRegSet l₂) := by
  refine ⟨?_, ?_, ?_⟩
  · intro rs r
    by_cases h : 64 ≤ r
    · simp [RegSet.add, h]
    · simp only [RegSet.add, if_neg h]
      rw [Nat.lor_assoc, Nat.or_self]
  · intro rs r s
    simp only [RegSet.add]
    split_ifs <;> try rfl
    rw [Nat.lor_assoc, Nat.lor_comm ((1 <<< r) % 2 ^ 64), ← Nat.lor_assoc]
  · intro l₁ l₂ hmem
    apply RegSet.eq_of_has_eq (NewRegSet_lt_two_pow l₁) (NewRegSet_lt_two_pow l₂)
    intro r
    cases h1 : (NewRegSet l₁).has r with
    | true =>
      have hm := (NewRegSet_has_iff l₁ r).mp h1
      exact ((NewRegSet_has_iff l₂ r).mpr ⟨(hmem r).mp hm.1, hm.2⟩).symm
    | false =>
      cases h2 : (NewRegSet l₂).has r with
      | false => rfl
      | true =>
        have hm := (NewRegSet_has_iff l₂ r).mp h2
        have hc := (NewRegSet_has_iff l₁ r).mpr ⟨(hmem r).mpr hm.1, hm.2⟩
        rw [h1] at hc
        exact absurd hc (by simp)

/-- C9 witness: a duplicated, reordered argument list builds the same set. -/
theorem C9_witness : NewRegSet [2, 1, 1] = NewRegSet [1, 2] :=
  C9_add_idempotent_commutative.2.2 [2, 1, 1] [1, 2] (by
    intro r
    simp only [List.mem_cons, List.not_mem_nil, or_false]
    tauto)

/-- C10: in-use map mutations touch only their own slot: for a register
below 64, after `add r vr` the query `get r` returns the stored pointer and
every slot other than `r` is unchanged; `remove r` succeeds, clears slot `r`
and leaves every other slot unchanged. -/
theorem C10_regInUseSet_frame {V : Type} (s : regInUseSet V) (r : RealReg)
    (h : r < 64) (vr : Option V) :
    (s.add r vr).get r = some vr ∧
    (∀ r' (h' : r' < 64), r' ≠ r → (s.add r vr) ⟨r', h'⟩ = s ⟨r', h'⟩) ∧
    ∃ s' : regInUseSet V, s.remove r = some s' ∧ s' ⟨r, h⟩ = none ∧
      ∀ r' (h' : r' < 64), r' ≠ r → s' ⟨r', h'⟩ = s ⟨r', h'⟩ := by
  refine ⟨?_, ?_, ?_⟩
  · simp [regInUseSet.get, regInUseSet.add, h]
  · intro r' h' hne
    simp only [regInUseSet.add, dif_pos h]
    exact Function.update_noteq (Fin.ne_of_val_ne hne) _ _
  · refine ⟨Function.update s ⟨r, h⟩ none, ?_, ?_, ?_⟩
    · simp [regInUseSet.remove, h]
    · exact Function.update_same _ _ _
    · intro r' h' hne
      exact Function.update_noteq (Fin.ne_of_val_ne hne) _ _

/-- C10 witness: after binding register 3, `get 3` returns the binding and
slot 5 is untouched. -/
theorem C10_witness :
    (regInUseSet.add (newRegInUseSet Nat) 3 (some 7)).get 3 = some (some 7) ∧
    regInUseSet.add (newRegInUseSet Nat) 3 (some 7) ⟨5, by decide⟩ =
      newRegInUseSet Nat ⟨5, by decide⟩ :=
  ⟨(C10_regInUseSet_frame (newRegInUseSet Nat) 3 (by decide) (some 7)).1,
   (C10_regInUseSet_frame (newRegInUseSet Nat) 3 (by decide) (some 7)).2.1 5
     (by decide) (by decide)⟩
